import Mathlib

/-!
Shallow embedding of the `reiterator` crate (files `src/cache.rs`, `src/lib.rs`,
`src/indexed.rs`).

A Rust `Iterator` is owned exclusively by the cache and interacted with only
through `next()`, so its observable behaviour is exactly the sequence of
responses it gives to the successive `next()` calls.  We model it as that
response sequence (`resp k` is what the `k`-th call to `next` returns) together
with a counter of how many calls have been made so far.

Each cached element lives in its own `Pin<Box<_>>` allocation whose address
never changes; we model an element reference `&I::Item` as the pair
`(address, value)`, with addresses handed out by a fresh-allocation counter.

The spec's Source contract ("returns nothing forever after the first nothing")
is the `Fused` predicate on response sequences; claims that quantify over
"every source" in the sense of the spec take it as a hypothesis.
-/

namespace Reit

/-- Model of a Rust `Iterator`: the scripted responses of successive `next()`
calls, plus how many calls have been made. -/
structure Iter (α : Type) where
  resp : Nat → Option α
  calls : Nat

/-- Model of `Iterator::next(&mut self) -> Option<Item>`. -/
def Iter.next (it : Iter α) : Option α × Iter α :=
  (it.resp it.calls, ⟨it.resp, it.calls + 1⟩)

/-- Model of `cache::Cache` (src/cache.rs): the owned iterator, the vector of
pinned cached elements (each one a pair of its stable address and its value),
and the allocator counter producing fresh addresses for `Box::pin`. -/
structure Cache (α : Type) where
  iter : Iter α
  vec : List (Nat × α)
  nextAddr : Nat

/-- Model of `Cache::new` / `cached`: empty vector, untouched iterator. -/
def Cache.new (resp : Nat → Option α) : Cache α :=
  ⟨⟨resp, 0⟩, [], 0⟩

/-- Model of `Cache::is_empty` (src/cache.rs lines 49-53). -/
def Cache.is_empty (c : Cache α) : Bool :=
  c.vec.isEmpty

/-- Model of `Cache::get` (src/cache.rs lines 58-84): loop; if `index` is
already cached (`self.vec.get(index)` is `Some`, i.e. `index` is in bounds)
return a reference to that element; otherwise pull `self.iter.next()`,
propagating `None` if the iterator yields nothing, else pinning the new
element in a fresh box, pushing it, and looping again. -/
def Cache.get (c : Cache α) (index : Nat) : Option (Nat × α) × Cache α :=
  if _h : index < c.vec.length then
    (c.vec[index]?, c)
  else
    match c.iter.next with
    | (none, it) => (none, ⟨it, c.vec, c.nextAddr⟩)
    | (some item, it) =>
      Cache.get ⟨it, c.vec ++ [(c.nextAddr, item)], c.nextAddr + 1⟩ index
termination_by index + 1 - c.vec.length
decreasing_by
  simp only [List.length_append, List.length_cons, List.length_nil]
  omega

/-- A finite sequence of `Cache::get` calls; returns the final cache state and
the number of lookups that returned `None`. -/
def Cache.runGets (c : Cache α) : List Nat → Cache α × Nat
  | [] => (c, 0)
  | i :: is =>
    (((c.get i).2.runGets is).1,
      (if (c.get i).1.isNone then 1 else 0) + ((c.get i).2.runGets is).2)

/-- Largest value of `usize` (we take the common 64-bit target). -/
def usizeMax : Nat := 2 ^ 64 - 1

/-- Model of `usize::checked_add`: `None` exactly on overflow. -/
def checked_add (a b : Nat) : Option Nat :=
  if a + b ≤ usizeMax then some (a + b) else none

/-- Model of `indexed::Indexed` (src/indexed.rs): an index paired with a
reference (address and value) to the cached element. -/
structure Indexed (α : Type) where
  index : Nat
  value : Nat × α
deriving DecidableEq

/-- Model of `Reiterator` (src/lib.rs): the owned cache plus the public
mutable current index. -/
structure Reiterator (α : Type) where
  cache : Cache α
  index : Nat

/-- Model of `Reiterator::new` / `reiterate`: fresh cache, index 0. -/
def Reiterator.new (resp : Nat → Option α) : Reiterator α :=
  ⟨Cache.new resp, 0⟩

/-- Model of `Reiterator::restart` (src/lib.rs lines 144-148): `self.index = 0`. -/
def Reiterator.restart (r : Reiterator α) : Reiterator α :=
  { r with index := 0 }

/-- Model of `Reiterator::at` (src/lib.rs lines 151-162): delegate to
`Cache::get` (the unsafe block only casts the reference's lifetime). -/
def Reiterator.at' (r : Reiterator α) (index : Nat) : Option (Nat × α) × Reiterator α :=
  ((r.cache.get index).1, { r with cache := (r.cache.get index).2 })

/-- Model of `Reiterator::get` (src/lib.rs lines 164-174): look up the current
index and pair the result with it; the cache mutation of `at` happens either
way. -/
def Reiterator.get (r : Reiterator α) : Option (Indexed α) × Reiterator α :=
  ((r.at' r.index).1.map fun v => Indexed.mk r.index v, (r.at' r.index).2)

/-- Model of `Reiterator::lazy_next` (src/lib.rs lines 177-183):
`self.index.checked_add(1)`, assigning and returning the incremented index on
success and leaving everything untouched on overflow. -/
def Reiterator.lazy_next (r : Reiterator α) : Option Nat × Reiterator α :=
  match checked_add r.index 1 with
  | some incr => (some incr, { r with index := incr })
  | none => (none, r)

/-- Model of `Reiterator::next` (src/lib.rs lines 186-192): capture the index,
advance with `lazy_next` (propagating `None` on overflow without touching the
cache), then look up the captured pre-advance index. -/
def Reiterator.next (r : Reiterator α) : Option (Indexed α) × Reiterator α :=
  match r.lazy_next with
  | (none, r₁) => (none, r₁)
  | (some _, r₁) =>
    ((r₁.at' r.index).1.map fun v => Indexed.mk r.index v, (r₁.at' r.index).2)

/-- Result list and final state of `m` successive `Reiterator::next` calls. -/
def Reiterator.nexts (r : Reiterator α) : Nat → List (Option (Indexed α)) × Reiterator α
  | 0 => ([], r)
  | m + 1 =>
    ((r.next).1 :: ((r.next).2.nexts m).1, ((r.next).2.nexts m).2)

/-- One public operation on the structure, for quantifying over arbitrary
operation sequences.  `cget i` is a direct `Cache::get(i)` on the owned cache
(its state effect; `at' i` performs exactly the same cache mutation). -/
inductive Op where
  | cget (i : Nat)
  | at' (i : Nat)
  | get'
  | next'
  | lazyNext
  | restart'

/-- State effect of one operation. -/
def Reiterator.step (r : Reiterator α) : Op → Reiterator α
  | .cget i => { r with cache := (r.cache.get i).2 }
  | .at' i => (r.at' i).2
  | .get' => r.get.2
  | .next' => r.next.2
  | .lazyNext => r.lazy_next.2
  | .restart' => r.restart

/-- State effect of a sequence of operations. -/
def Reiterator.run (r : Reiterator α) (ops : List Op) : Reiterator α :=
  ops.foldl Reiterator.step r

/-- The response sequence of a finite source that yields exactly the elements
of `vals`, in order, then is exhausted. -/
def ofList (vals : List α) : Nat → Option α :=
  fun k => vals[k]?

/-- The spec's Source exhaustion contract: after the first `None` the source
returns `None` forever. -/
def Fused (resp : Nat → Option α) : Prop :=
  ∀ j k, j ≤ k → resp j = none → resp k = none

/-- Invariant tying a cache state to its iterator: the allocation counter
counts the elements ever allocated, addresses are handed out consecutively,
and the stored values are exactly the items the iterator has yielded so far,
in order. -/
def Cache.WF (c : Cache α) : Prop :=
  c.nextAddr = c.vec.length ∧
  c.vec.map Prod.fst = List.range c.vec.length ∧
  c.vec.map Prod.snd = (List.range c.iter.calls).filterMap c.iter.resp

/-! ## Basic unfolding lemmas for `Cache.get` -/

theorem Cache.get_hit (c : Cache α) (i : Nat) (h : i < c.vec.length) :
    c.get i = (c.vec[i]?, c) := by
  rw [Cache.get, dif_pos h]

theorem Cache.get_miss_none (c : Cache α) (i : Nat) (h : ¬ i < c.vec.length)
    (hn : c.iter.resp c.iter.calls = none) :
    c.get i = (none, ⟨⟨c.iter.resp, c.iter.calls + 1⟩, c.vec, c.nextAddr⟩) := by
  rw [Cache.get, dif_neg h]
  simp [Iter.next, hn]

theorem Cache.get_miss_some (c : Cache α) (i : Nat) (a : α) (h : ¬ i < c.vec.length)
    (hs : c.iter.resp c.iter.calls = some a) :
    c.get i = Cache.get ⟨⟨c.iter.resp, c.iter.calls + 1⟩,
      c.vec ++ [(c.nextAddr, a)], c.nextAddr + 1⟩ i := by
  rw [Cache.get, dif_neg h]
  simp [Iter.next, hs]

/-! ## Structural facts about `Cache.get` -/

theorem Cache.get_prefix (c : Cache α) (i : Nat) : c.vec <+: (c.get i).2.vec := by
  induction c, i using Reit.Cache.get.induct with
  | case1 c i h => simp [Cache.get_hit c i h]
  | case2 c i h it hnext =>
    simp only [Iter.next, Prod.mk.injEq] at hnext
    rw [Cache.get_miss_none c i h hnext.1]
  | case3 c i h a it hnext ih =>
    simp only [Iter.next, Prod.mk.injEq] at hnext
    rw [Cache.get_miss_some c i a h hnext.1]
    refine List.IsPrefix.trans ⟨[(c.nextAddr, a)], rfl⟩ ?_
    rw [← hnext.2] at ih
    exact ih

theorem Cache.get_resp (c : Cache α) (i : Nat) :
    (c.get i).2.iter.resp = c.iter.resp := by
  induction c, i using Reit.Cache.get.induct with
  | case1 c i h => simp [Cache.get_hit c i h]
  | case2 c i h it hnext =>
    simp only [Iter.next, Prod.mk.injEq] at hnext
    rw [Cache.get_miss_none c i h hnext.1]
  | case3 c i h a it hnext ih =>
    simp only [Iter.next, Prod.mk.injEq] at hnext
    rw [Cache.get_miss_some c i a h hnext.1]
    rw [← hnext.2] at ih
    exact ih

theorem Cache.get_fst (c : Cache α) (i : Nat) :
    (c.get i).1 = (c.get i).2.vec[i]? := by
  induction c, i using Reit.Cache.get.induct with
  | case1 c i h => simp [Cache.get_hit c i h]
  | case2 c i h it hnext =>
    simp only [Iter.next, Prod.mk.injEq] at hnext
    rw [Cache.get_miss_none c i h hnext.1]
    exact (List.getElem?_eq_none (Nat.le_of_not_lt h)).symm
  | case3 c i h a it hnext ih =>
    simp only [Iter.next, Prod.mk.injEq] at hnext
    rw [Cache.get_miss_some c i a h hnext.1]
    rw [← hnext.2] at ih
    exact ih

theorem Cache.get_calls (c : Cache α) (i : Nat) :
    (c.get i).2.iter.calls + c.vec.length
      = c.iter.calls + (c.get i).2.vec.length
        + (if (c.get i).1.isNone then 1 else 0) := by
  induction c, i using Reit.Cache.get.induct with
  | case1 c i h =>
    rw [Cache.get_hit c i h]
    simp [List.getElem?_eq_getElem h]
  | case2 c i h it hnext =>
    simp only [Iter.next, Prod.mk.injEq] at hnext
    rw [Cache.get_miss_none c i h hnext.1]
    simp
    omega
  | case3 c i h a it hnext ih =>
    simp only [Iter.next, Prod.mk.injEq] at hnext
    rw [Cache.get_miss_some c i a h hnext.1]
    rw [← hnext.2] at ih
    simp only [List.length_append, List.length_cons, List.length_nil] at ih ⊢
    cases h2 : (Cache.get ⟨⟨c.iter.resp, c.iter.calls + 1⟩,
        c.vec ++ [(c.nextAddr, a)], c.nextAddr + 1⟩ i).1.isNone <;>
      simp only [h2, if_true, if_false] at ih ⊢ <;> omega

theorem Cache.get_len_le (c : Cache α) (i : Nat) :
    (c.get i).2.vec.length ≤ max c.vec.length (i + 1) := by
  induction c, i using Reit.Cache.get.induct with
  | case1 c i h =>
    rw [Cache.get_hit c i h]
    exact le_max_left _ _
  | case2 c i h it hnext =>
    simp only [Iter.next, Prod.mk.injEq] at hnext
    rw [Cache.get_miss_none c i h hnext.1]
    exact le_max_left _ _
  | case3 c i h a it hnext ih =>
    simp only [Iter.next, Prod.mk.injEq] at hnext
    rw [Cache.get_miss_some c i a h hnext.1]
    rw [← hnext.2] at ih
    simp only [List.length_append, List.length_cons, List.length_nil] at ih
    omega

theorem Cache.get_nextAddr (c : Cache α) (i : Nat) :
    (c.get i).2.nextAddr + c.vec.length = c.nextAddr + (c.get i).2.vec.length := by
  induction c, i using Reit.Cache.get.induct with
  | case1 c i h => rw [Cache.get_hit c i h]
  | case2 c i h it hnext =>
    simp only [Iter.next, Prod.mk.injEq] at hnext
    rw [Cache.get_miss_none c i h hnext.1]
  | case3 c i h a it hnext ih =>
    simp only [Iter.next, Prod.mk.injEq] at hnext
    rw [Cache.get_miss_some c i a h hnext.1]
    rw [← hnext.2] at ih
    simp only [List.length_append, List.length_cons, List.length_nil] at ih ⊢
    omega

/-! ## The well-formedness invariant -/

theorem Cache.WF_new (resp : Nat → Option α) : (Cache.new resp).WF :=
  ⟨rfl, rfl, rfl⟩

theorem Cache.WF_push (c : Cache α) (a : α) (hw : c.WF)
    (hs : c.iter.resp c.iter.calls = some a) :
    Cache.WF ⟨⟨c.iter.resp, c.iter.calls + 1⟩,
      c.vec ++ [(c.nextAddr, a)], c.nextAddr + 1⟩ := by
  obtain ⟨hna, hfst, hsnd⟩ := hw
  refine ⟨?_, ?_, ?_⟩
  · simp [hna]
  · simp only [List.map_append, List.map_cons, List.map_nil, hfst, hna,
      List.length_append, List.length_cons, List.length_nil]
    rw [List.range_succ]
  · simp only [List.map_append, List.map_cons, List.map_nil, hsnd]
    rw [List.range_succ, List.filterMap_append]
    simp [hs]

theorem Cache.WF_get (c : Cache α) (i : Nat) : c.WF → (c.get i).2.WF := by
  induction c, i using Reit.Cache.get.induct with
  | case1 c i h =>
    intro hw
    rw [Cache.get_hit c i h]
    exact hw
  | case2 c i h it hnext =>
    intro hw
    simp only [Iter.next, Prod.mk.injEq] at hnext
    rw [Cache.get_miss_none c i h hnext.1]
    obtain ⟨hna, hfst, hsnd⟩ := hw
    refine ⟨hna, hfst, ?_⟩
    rw [hsnd, List.range_succ, List.filterMap_append]
    simp [hnext.1]
  | case3 c i h a it hnext ih =>
    intro hw
    simp only [Iter.next, Prod.mk.injEq] at hnext
    rw [Cache.get_miss_some c i a h hnext.1]
    rw [← hnext.2] at ih
    exact ih (c.WF_push a hw hnext.1)

/-! ## Fused sources -/

theorem fused_ofList (vals : List α) : Fused (ofList vals) := by
  intro j k hjk hj
  exact List.getElem?_eq_none (le_trans (List.getElem?_eq_none_iff.mp hj) hjk)

theorem fused_filterMap (resp : Nat → Option α) (hf : Fused resp) (m : Nat) :
    (∀ k, k < ((List.range m).filterMap resp).length →
      ((List.range m).filterMap resp)[k]? = resp k) ∧
    (((List.range m).filterMap resp).length < m →
      resp ((List.range m).filterMap resp).length = none) := by
  induction m with
  | zero => simp
  | succ m ih =>
    have hle : ((List.range m).filterMap resp).length ≤ m := by
      calc ((List.range m).filterMap resp).length
          ≤ (List.range m).length := List.length_filterMap_le _ _
        _ = m := List.length_range m
    rw [List.range_succ, List.filterMap_append]
    cases hr : resp m with
    | none =>
      simp only [List.filterMap_cons, hr, List.filterMap_nil, List.append_nil]
      refine ⟨ih.1, fun hlt => ?_⟩
      rcases Nat.lt_or_ge ((List.range m).filterMap resp).length m with h | h
      · exact ih.2 h
      · rw [le_antisymm hle h]
        exact hr
    | some a =>
      have hlen : ((List.range m).filterMap resp).length = m := by
        by_contra hne
        have hlt : ((List.range m).filterMap resp).length < m := lt_of_le_of_ne hle hne
        have h0 := hf _ m (Nat.le_of_lt hlt) (ih.2 hlt)
        rw [hr] at h0
        exact Option.noConfusion h0
      simp only [List.filterMap_cons, hr, List.filterMap_nil]
      constructor
      · intro k hk
        simp only [List.length_append, List.length_cons, List.length_nil, hlen] at hk
        rcases Nat.lt_or_ge k m with h | h
        · rw [List.getElem?_append_left (by rw [hlen]; exact h)]
          exact ih.1 k (by rw [hlen]; exact h)
        · have hkm : k = m := Nat.le_antisymm (Nat.lt_succ_iff.mp hk) h
          subst hkm
          rw [List.getElem?_append_right (by rw [hlen])]
          simp [hlen, hr]
      · intro hcon
        simp only [List.length_append, List.length_cons, List.length_nil, hlen] at hcon
        omega

theorem Cache.WF_pointwise (c : Cache α) (hw : c.WF) (hf : Fused c.iter.resp)
    (k : Nat) (hk : k < c.vec.length) :
    c.vec[k]? = (c.iter.resp k).map fun v => (k, v) := by
  obtain ⟨-, hfst, hsnd⟩ := hw
  have hlen : ((List.range c.iter.calls).filterMap c.iter.resp).length
      = c.vec.length := by
    rw [← hsnd, List.length_map]
  have h1 : (c.vec.map Prod.fst)[k]? = some k := by
    rw [hfst]
    exact List.getElem?_range hk
  have h2 : (c.vec.map Prod.snd)[k]? = c.iter.resp k := by
    rw [hsnd]
    exact (fused_filterMap _ hf _).1 k (by rw [hlen]; exact hk)
  rw [List.getElem?_map] at h1 h2
  cases hx : c.vec[k]? with
  | none =>
    rw [hx] at h1
    exact Option.noConfusion h1
  | some x =>
    obtain ⟨x1, x2⟩ := x
    rw [hx] at h1 h2
    simp only [Option.map_some'] at h1 h2
    rw [← h2]
    simp only [Option.map_some']
    have : x1 = k := by injection h1
    rw [this]

theorem Cache.exhaust_of_miss (c : Cache α) (hw : c.WF) (hf : Fused c.iter.resp)
    (hn : c.iter.resp c.iter.calls = none) :
    c.iter.resp c.vec.length = none := by
  have hlen : ((List.range c.iter.calls).filterMap c.iter.resp).length
      = c.vec.length := by
    rw [← hw.2.2, List.length_map]
  rcases Nat.lt_or_ge c.vec.length c.iter.calls with hlt | hge
  · have h0 := (fused_filterMap _ hf c.iter.calls).2 (by rw [hlen]; exact hlt)
    rw [hlen] at h0
    exact h0
  · have hle : c.vec.length ≤ c.iter.calls := by
      rw [← hlen]
      calc ((List.range c.iter.calls).filterMap c.iter.resp).length
          ≤ (List.range c.iter.calls).length := List.length_filterMap_le _ _
        _ = c.iter.calls := List.length_range _
    rw [le_antisymm hle hge]
    exact hn

theorem Cache.get_fused (c : Cache α) (i : Nat) :
    Fused c.iter.resp → c.WF →
      (c.get i).1 = (c.iter.resp i).map fun v => (i, v) := by
  induction c, i using Reit.Cache.get.induct with
  | case1 c i h =>
    intro hf hw
    rw [Cache.get_hit c i h]
    exact c.WF_pointwise hw hf i h
  | case2 c i h it hnext =>
    intro hf hw
    simp only [Iter.next, Prod.mk.injEq] at hnext
    rw [Cache.get_miss_none c i h hnext.1]
    rw [hf _ i (Nat.le_of_not_lt h) (c.exhaust_of_miss hw hf hnext.1)]
    rfl
  | case3 c i h a it hnext ih =>
    intro hf hw
    simp only [Iter.next, Prod.mk.injEq] at hnext
    rw [Cache.get_miss_some c i a h hnext.1]
    rw [← hnext.2] at ih
    exact ih hf (c.WF_push a hw hnext.1)

/-! ## Reiterator-level structural facts -/

theorem Reiterator.lazy_next_cache (r : Reiterator α) :
    (r.lazy_next).2.cache = r.cache := by
  cases h : checked_add r.index 1 <;> simp [Reiterator.lazy_next, h]

theorem Reiterator.lazy_next_spec (r : Reiterator α) :
    (r.index + 1 ≤ usizeMax →
      r.lazy_next = (some (r.index + 1), { r with index := r.index + 1 })) ∧
    (¬ r.index + 1 ≤ usizeMax → r.lazy_next = (none, r)) := by
  constructor <;> intro h <;>
    simp [Reiterator.lazy_next, checked_add, h]

theorem Reiterator.next_cache (r : Reiterator α) :
    (r.next).2.cache = r.cache ∨ (r.next).2.cache = (r.cache.get r.index).2 := by
  by_cases h : r.index + 1 ≤ usizeMax
  · right
    rw [Reiterator.next, (r.lazy_next_spec).1 h]
    rfl
  · left
    rw [Reiterator.next, (r.lazy_next_spec).2 h]

theorem Reiterator.step_prefix (r : Reiterator α) (op : Op) :
    r.cache.vec <+: (r.step op).cache.vec := by
  cases op with
  | cget i => exact r.cache.get_prefix i
  | at' i => exact r.cache.get_prefix i
  | get' => exact r.cache.get_prefix r.index
  | next' =>
    rcases r.next_cache with h | h <;> rw [Reiterator.step, h]
    exact r.cache.get_prefix r.index
  | lazyNext =>
    rw [Reiterator.step, r.lazy_next_cache]
  | restart' => exact List.prefix_rfl

theorem Reiterator.step_resp (r : Reiterator α) (op : Op) :
    (r.step op).cache.iter.resp = r.cache.iter.resp := by
  cases op with
  | cget i => exact r.cache.get_resp i
  | at' i => exact r.cache.get_resp i
  | get' => exact r.cache.get_resp r.index
  | next' =>
    rcases r.next_cache with h | h <;> rw [Reiterator.step, h]
    exact r.cache.get_resp r.index
  | lazyNext =>
    rw [Reiterator.step, r.lazy_next_cache]
  | restart' => rfl

theorem Reiterator.step_WF (r : Reiterator α) (op : Op) (hw : r.cache.WF) :
    (r.step op).cache.WF := by
  cases op with
  | cget i => exact r.cache.WF_get i hw
  | at' i => exact r.cache.WF_get i hw
  | get' => exact r.cache.WF_get r.index hw
  | next' =>
    rcases r.next_cache with h | h <;> rw [Reiterator.step, h]
    · exact hw
    · exact r.cache.WF_get r.index hw
  | lazyNext =>
    rw [Reiterator.step, r.lazy_next_cache]
    exact hw
  | restart' => exact hw

theorem Reiterator.run_prefix (ops : List Op) (r : Reiterator α) :
    r.cache.vec <+: (r.run ops).cache.vec := by
  induction ops generalizing r with
  | nil => exact List.prefix_rfl
  | cons op ops ih =>
    exact List.IsPrefix.trans (r.step_prefix op) (ih (r.step op))

theorem Reiterator.run_resp (ops : List Op) (r : Reiterator α) :
    (r.run ops).cache.iter.resp = r.cache.iter.resp := by
  induction ops generalizing r with
  | nil => rfl
  | cons op ops ih =>
    exact (ih (r.step op)).trans (r.step_resp op)

theorem Reiterator.run_WF (ops : List Op) (r : Reiterator α) (hw : r.cache.WF) :
    (r.run ops).cache.WF := by
  induction ops generalizing r with
  | nil => exact hw
  | cons op ops ih =>
    exact ih (r.step op) (r.step_WF op hw)

/-! ## Traversal of a fused source by successive `next` calls -/

theorem Reiterator.next_unfold (r : Reiterator α) (h1 : r.index + 1 ≤ usizeMax) :
    r.next = ((r.cache.get r.index).1.map (fun v => Indexed.mk r.index v),
      ⟨(r.cache.get r.index).2, r.index + 1⟩) := by
  rw [Reiterator.next, (r.lazy_next_spec).1 h1]
  rfl


theorem Reiterator.nexts_fused (m : Nat) (r : Reiterator α)
    (hf : Fused r.cache.iter.resp) (hw : r.cache.WF)
    (hm : r.index + m ≤ usizeMax) :
    (r.nexts m).1 = (List.range' r.index m).map
        (fun k => (r.cache.iter.resp k).map fun v => Indexed.mk k (k, v)) ∧
    (r.nexts m).2.index = r.index + m ∧
    (r.nexts m).2.cache.iter.resp = r.cache.iter.resp ∧
    (r.nexts m).2.cache.WF ∧
    r.cache.vec <+: (r.nexts m).2.cache.vec ∧
    (r.nexts m).2.cache.vec.length ≤ max r.cache.vec.length (r.index + m) ∧
    ((r.nexts m).2.cache.iter.calls + r.cache.vec.length
      = r.cache.iter.calls + (r.nexts m).2.cache.vec.length
        + (r.nexts m).1.countP (fun o => o.isNone)) ∧
    (∀ k, r.index ≤ k → k < r.index + m → (r.cache.iter.resp k).isSome →
      k < (r.nexts m).2.cache.vec.length) := by
  induction m generalizing r with
  | zero =>
    refine ⟨by simp [Reiterator.nexts], rfl, rfl, hw, List.prefix_rfl, le_max_left _ _,
      by simp [Reiterator.nexts], ?_⟩
    intro k _ hk _
    omega
  | succ m ih =>
    have h1 : r.index + 1 ≤ usizeMax := by omega
    have hnx := r.next_unfold h1
    have hresp := r.cache.get_resp r.index
    have hf2 : Fused ((r.cache.get r.index).2.iter.resp) := by
      rw [hresp]
      exact hf
    have hw2 := r.cache.WF_get r.index hw
    have hm2 : r.index + 1 + m ≤ usizeMax := by omega
    obtain ⟨ihres, ihidx, ihresp, ihwf, ihpre, ihlen, ihcalls, ihfr⟩ :=
      ih ⟨(r.cache.get r.index).2, r.index + 1⟩ hf2 hw2 hm2
    dsimp only at ihres ihidx ihresp ihwf ihpre ihlen ihcalls ihfr
    rw [hresp] at ihres
    have hone := r.cache.get_calls r.index
    have honepre := r.cache.get_prefix r.index
    have honelen := r.cache.get_len_le r.index
    have hfst := r.cache.get_fst r.index
    simp only [Reiterator.nexts, hnx]
    refine ⟨?_, ?_, ?_, ihwf, honepre.trans ihpre, ?_, ?_, ?_⟩
    · rw [List.range'_succ, List.map_cons, ihres, r.cache.get_fused r.index hf hw]
      simp only [Option.map_map]
      rfl
    · omega
    · rw [ihresp, hresp]
    · omega
    · rw [List.countP_cons]
      cases hc : (r.cache.get r.index).1 with
      | none =>
        rw [hc] at hone
        simp only [Option.isNone_none, if_true] at hone
        simp only [hc, Option.map_none', Option.isNone_none, decide_True, if_true]
        omega
      | some x =>
        rw [hc] at hone
        simp only [Option.isNone_some, if_false] at hone
        simp only [hc, Option.map_some', Option.isNone_some, decide_False, if_false]
        omega
    · intro k hk1 hk2 hk3
      rcases Nat.eq_or_lt_of_le hk1 with heq | hlt
      · have hk3' : (r.cache.iter.resp r.index).isSome := by
          rw [heq]
          exact hk3
        have hsome : ((r.cache.get r.index).1).isSome := by
          rw [r.cache.get_fused r.index hf hw]
          obtain ⟨v, hv⟩ := Option.isSome_iff_exists.mp hk3'
          rw [hv]
          rfl
        obtain ⟨x, hx⟩ := Option.isSome_iff_exists.mp hsome
        rw [hfst] at hx
        have hklen : r.index < (r.cache.get r.index).2.vec.length :=
          (List.getElem?_eq_some_iff.mp hx).1
        rw [← heq]
        exact lt_of_lt_of_le hklen ihpre.length_le
      · exact ihfr k (by omega) (by omega) (by rw [hresp]; exact hk3)

/-! ## Further helper lemmas -/

theorem getElem?_stable {β : Type} {l₁ l₂ : List β} (h : l₁ <+: l₂) (n : Nat)
    (x : β) (hx : l₁[n]? = some x) : l₂[n]? = some x := by
  obtain ⟨t, rfl⟩ := h
  rw [List.getElem?_append_left (List.getElem?_eq_some_iff.mp hx).1]
  exact hx

theorem Reiterator.nexts_cached (m : Nat) (r : Reiterator α)
    (hlen : r.index + m ≤ r.cache.vec.length) (hmax : r.index + m ≤ usizeMax) :
    (r.nexts m).2.cache = r.cache := by
  induction m generalizing r with
  | zero => rfl
  | succ m ih =>
    have h1 : r.index + 1 ≤ usizeMax := by omega
    have hnx := r.next_unfold h1
    have hhit := r.cache.get_hit r.index (by omega)
    have hc2 : (r.cache.get r.index).2 = r.cache := congrArg Prod.snd hhit
    simp only [Reiterator.nexts, hnx, hc2]
    have := ih ⟨r.cache, r.index + 1⟩ (by dsimp only; omega) (by dsimp only; omega)
    dsimp only at this
    exact this

theorem Cache.pull_all (c : Cache α) (i : Nat) :
    ∀ (vals : List α), c.iter.resp = ofList vals → c.iter.calls = c.vec.length →
      c.vec.length ≤ vals.length → vals.length ≤ i →
      (c.get i).1 = none ∧ (c.get i).2.vec.length = vals.length := by
  induction c, i using Reit.Cache.get.induct with
  | case1 c i h =>
    intro vals _ _ h3 h4
    omega
  | case2 c i h it hnext =>
    intro vals h1 h2 h3 h4
    simp only [Iter.next, Prod.mk.injEq] at hnext
    rw [Cache.get_miss_none c i h hnext.1]
    have hn : vals[c.vec.length]? = none := by
      have := hnext.1
      rw [h1, h2] at this
      exact this
    have : vals.length ≤ c.vec.length := List.getElem?_eq_none_iff.mp hn
    refine ⟨rfl, ?_⟩
    dsimp only
    omega
  | case3 c i h a it hnext ih =>
    intro vals h1 h2 h3 h4
    simp only [Iter.next, Prod.mk.injEq] at hnext
    rw [Cache.get_miss_some c i a h hnext.1]
    rw [← hnext.2] at ih
    have hs : vals[c.vec.length]? = some a := by
      have := hnext.1
      rw [h1, h2] at this
      exact this
    have hlt : c.vec.length < vals.length := (List.getElem?_eq_some_iff.mp hs).1
    have := ih vals h1 (by simp [h2]) (by simp; omega) h4
    simpa using this

theorem Cache.runGets_calls (is : List Nat) (c : Cache α) :
    (c.runGets is).1.iter.calls + c.vec.length
      = c.iter.calls + (c.runGets is).1.vec.length + (c.runGets is).2 := by
  induction is generalizing c with
  | nil => simp [Cache.runGets]
  | cons i is ih =>
    simp only [Cache.runGets]
    have h1 := c.get_calls i
    have h2 := (c.get_prefix i).length_le
    have h3 := ih (c.get i).2
    by_cases hno : (c.get i).1.isNone = true
    · rw [if_pos hno] at h1 ⊢
      omega
    · rw [if_neg hno] at h1 ⊢
      omega

theorem Cache.get_none_calls (c : Cache α) (i : Nat) (h : (c.get i).1 = none) :
    c.iter.calls < (c.get i).2.iter.calls := by
  have h1 := c.get_calls i
  have h2 := (c.get_prefix i).length_le
  rw [h] at h1
  simp only [Option.isNone_none, if_true] at h1
  omega

/-! ## Claim theorems -/

/-- C1: across every sequence of operations (a direct `Cache::get`, or
`Reiterator::at`/`get`/`next`/`lazy_next`/`restart`), the store only ever
grows by appending (the old vector is a literal prefix of the new one, so no
element is removed, reordered, or overwritten), the element count never
decreases, and a lookup of index `k` that succeeds returns the same stored
element, at the same address, on every later lookup of `k`. -/
theorem C1_store_append_only_and_stable {α : Type} :
    (∀ (r : Reiterator α) (ops : List Op), r.cache.vec <+: (r.run ops).cache.vec) ∧
    (∀ (r : Reiterator α) (ops : List Op),
      r.cache.vec.length ≤ (r.run ops).cache.vec.length) ∧
    (∀ (r : Reiterator α) (k : Nat) (x : Nat × α) (ops : List Op),
      (r.at' k).1 = some x → (((r.at' k).2.run ops).at' k).1 = some x) := by
  refine ⟨fun r ops => Reiterator.run_prefix ops r,
    fun r ops => (Reiterator.run_prefix ops r).length_le, ?_⟩
  intro r k x ops h
  have h' : (r.cache.get k).1 = some x := h
  have hfst := r.cache.get_fst k
  rw [h'] at hfst
  have hpre := Reiterator.run_prefix ops (r.at' k).2
  have hx : ((r.at' k).2.run ops).cache.vec[k]? = some x :=
    getElem?_stable hpre k x hfst.symm
  have hk : k < ((r.at' k).2.run ops).cache.vec.length :=
    (List.getElem?_eq_some_iff.mp hx).1
  show ((((r.at' k).2.run ops).cache.get k)).1 = some x
  rw [Cache.get_hit _ k hk]
  exact hx

/-- Concrete instance of C1's stability conjunct: index 0 of a two-element
source, looked up again after further operations, yields the identical
(address, value) pair. -/
theorem C1_witness :
    ((Reiterator.new (ofList ([10, 20] : List Nat))).at' 0).1 = some (0, 10) ∧
    (((((Reiterator.new (ofList ([10, 20] : List Nat))).at' 0).2.run
        [Op.next', Op.restart']).at' 0).1 = some (0, 10)) := by
  have h : ((Reiterator.new (ofList ([10, 20] : List Nat))).at' 0).1 = some (0, 10) := by
    simp [Reiterator.at', Reiterator.new, Cache.new, Cache.get, Iter.next, ofList]
  exact ⟨h, C1_store_append_only_and_stable.2.2 _ 0 (0, 10) [Op.next', Op.restart'] h⟩

/-- C2: for a source satisfying the spec's exhaustion contract, after a
successful `Cache::get(i)` the cache holds at least `i + 1` elements, positions
`0..i` hold exactly the first `i + 1` source outputs in order (no skip,
reorder, or duplicate), and the returned reference is the element stored at
position `i`. -/
theorem C2_materializes_exact_source_values (c : Cache α) (i : Nat)
    (hf : Fused c.iter.resp) (hw : c.WF) (x : Nat × α)
    (h : (c.get i).1 = some x) :
    i + 1 ≤ (c.get i).2.vec.length ∧
    (∀ k, k ≤ i → (c.get i).2.vec[k]? = (c.iter.resp k).map fun v => (k, v)) ∧
    (c.get i).2.vec[i]? = some x := by
  have hfst := c.get_fst i
  rw [h] at hfst
  have hi : i < (c.get i).2.vec.length := (List.getElem?_eq_some_iff.mp hfst.symm).1
  have hw2 := c.WF_get i hw
  have hf2 : Fused (c.get i).2.iter.resp := by
    rw [c.get_resp i]
    exact hf
  refine ⟨by omega, ?_, hfst.symm⟩
  intro k hk
  have hpt := (c.get i).2.WF_pointwise hw2 hf2 k (by omega)
  rw [c.get_resp i] at hpt
  exact hpt

/-- Concrete instance of C2 on the source `[7, 8]` at index 1. -/
theorem C2_witness :
    ((Cache.new (ofList ([7, 8] : List Nat))).get 1).1 = some (1, 8) ∧
    1 + 1 ≤ ((Cache.new (ofList ([7, 8] : List Nat))).get 1).2.vec.length ∧
    ((Cache.new (ofList ([7, 8] : List Nat))).get 1).2.vec[1]? = some (1, 8) := by
  have h : ((Cache.new (ofList ([7, 8] : List Nat))).get 1).1 = some (1, 8) := by
    simp [Cache.get, Cache.new, Iter.next, ofList]
  have main := C2_materializes_exact_source_values (Cache.new (ofList ([7, 8] : List Nat)))
    1 (fused_ofList _) (Cache.WF_new _) (1, 8) h
  exact ⟨h, main.1, main.2.2⟩

/-- C5: once `get(i)` has succeeded, repeating `get(i)` returns the very same
stored element (same address and value) without changing the cache state at
all, hence without any further calls to the source. -/
theorem C5_idempotent_after_success (c : Cache α) (i : Nat) (x : Nat × α)
    (h : (c.get i).1 = some x) :
    (c.get i).2.get i = (some x, (c.get i).2) ∧
    ((c.get i).2.get i).2.iter.calls = (c.get i).2.iter.calls := by
  have hfst := c.get_fst i
  rw [h] at hfst
  have hi : i < (c.get i).2.vec.length := (List.getElem?_eq_some_iff.mp hfst.symm).1
  have hhit := Cache.get_hit (c.get i).2 i hi
  rw [← hfst] at hhit
  exact ⟨hhit, by rw [hhit]⟩

/-- Concrete instance of C5 on the source `[9]` at index 0. -/
theorem C5_witness :
    ((Cache.new (ofList ([9] : List Nat))).get 0).1 = some (0, 9) ∧
    ((Cache.new (ofList ([9] : List Nat))).get 0).2.get 0
      = (some (0, 9), ((Cache.new (ofList ([9] : List Nat))).get 0).2) := by
  have h : ((Cache.new (ofList ([9] : List Nat))).get 0).1 = some (0, 9) := by
    simp [Cache.get, Cache.new, Iter.next, ofList]
  exact ⟨h, (C5_idempotent_after_success _ 0 (0, 9) h).1⟩

/-- C7: `lazy_next` increments the index by one and returns the new index,
returning `None` only on `usize` overflow (the index then stays at its
maximum), and it never touches the cache or the source. -/
theorem C7_lazy_next_overflow_only (r : Reiterator α) (_h : r.index ≤ usizeMax) :
    (r.index < usizeMax →
      r.lazy_next = (some (r.index + 1), { r with index := r.index + 1 })) ∧
    (r.index = usizeMax → r.lazy_next = (none, r)) ∧
    (r.lazy_next).2.cache = r.cache ∧
    (r.lazy_next).2.cache.iter.calls = r.cache.iter.calls := by
  refine ⟨fun h1 => (r.lazy_next_spec).1 (by omega),
    fun h2 => (r.lazy_next_spec).2 (by omega),
    r.lazy_next_cache, by rw [r.lazy_next_cache]⟩

/-- Concrete instance of C7 on a fresh cursor (index 0). -/
theorem C7_witness :
    (Reiterator.new (ofList ([1] : List Nat))).index ≤ usizeMax ∧
    (Reiterator.new (ofList ([1] : List Nat))).lazy_next
      = (some 1, ⟨Cache.new (ofList ([1] : List Nat)), 1⟩) := by
  refine ⟨by decide, ?_⟩
  exact (C7_lazy_next_overflow_only (Reiterator.new (ofList ([1] : List Nat)))
    (by decide)).1 (by decide)

/-- C10: a lookup past the end of a finite source returns nothing but still
materializes the whole source: the element count afterwards equals the source
length, so `is_empty` flips from true to false as a side effect of the failed
lookup whenever the source was non-empty.  The same holds through
`Reiterator::at`. -/
theorem C10_failed_lookup_materializes (vals : List α) (i : Nat)
    (h : vals.length ≤ i) :
    ((Cache.new (ofList vals)).get i).1 = none ∧
    ((Cache.new (ofList vals)).get i).2.vec.length = vals.length ∧
    (Cache.new (ofList vals)).is_empty = true ∧
    (((Cache.new (ofList vals)).get i).2.is_empty = false ↔ vals ≠ []) ∧
    ((Reiterator.new (ofList vals)).at' i).1 = none ∧
    ((Reiterator.new (ofList vals)).at' i).2.cache.vec.length = vals.length := by
  obtain ⟨hnone, hlen⟩ := (Cache.new (ofList vals)).pull_all i vals rfl rfl
    (by simp [Cache.new]) h
  refine ⟨hnone, hlen, rfl, ?_, hnone, hlen⟩
  rw [Cache.is_empty]
  constructor
  · intro hne he
    subst he
    simp only [List.length_nil] at hlen
    rw [List.eq_nil_of_length_eq_zero hlen] at hne
    simp at hne
  · intro hne
    cases hv : ((Cache.new (ofList vals)).get i).2.vec with
    | nil =>
      rw [hv] at hlen
      simp only [List.length_nil] at hlen
      exact absurd (List.eq_nil_of_length_eq_zero hlen.symm) hne
    | cons y ys => rfl

/-- Concrete instance of C10: looking up index 5 of the two-element source
`[1, 2]` fails but caches both elements. -/
theorem C10_witness :
    ([1, 2] : List Nat).length ≤ 5 ∧
    ((Cache.new (ofList ([1, 2] : List Nat))).get 5).1 = none ∧
    ((Cache.new (ofList ([1, 2] : List Nat))).get 5).2.vec.length
      = ([1, 2] : List Nat).length ∧
    (((Cache.new (ofList ([1, 2] : List Nat))).get 5).2.is_empty = false ↔
      ([1, 2] : List Nat) ≠ []) := by
  have main := C10_failed_lookup_materializes ([1, 2] : List Nat) 5 (by decide)
  exact ⟨by decide, main.1, main.2.1, main.2.2.2.1⟩

/-- C3 counterexample: even for a contract-satisfying (always-absent, hence
fused) source, after the first lookup observes exhaustion a second lookup
makes one more `Iterator::next` call on the source, contradicting "the cache
never calls the source's advance again". -/
theorem C3_counterexample :
    (((Cache.new (fun _ => (none : Option Nat))).get 0).1 = none) ∧
    ((((Cache.new (fun _ => (none : Option Nat))).get 0).2.get 0).2.iter.calls
      = ((Cache.new (fun _ => (none : Option Nat))).get 0).2.iter.calls + 1) := by
  constructor <;> simp [Cache.get, Cache.new, Iter.next]

/-- C3 (amended): for a source satisfying the spec's exhaustion contract, once
a lookup has returned absent, every later lookup of any index `j ≥ i` returns
absent for the remainder of the cache's life — but each such absent lookup
does call the source's advance once more (it does not avoid re-polling). -/
theorem C3_exhaustion_final (r : Reiterator α) (i : Nat)
    (hf : Fused r.cache.iter.resp) (hw : r.cache.WF)
    (h : (r.at' i).1 = none) :
    (∀ (ops : List Op) (j : Nat), i ≤ j → (((r.at' i).2.run ops).at' j).1 = none) ∧
    (∀ (c : Cache α) (k : Nat), (c.get k).1 = none →
      c.iter.calls < (c.get k).2.iter.calls) := by
  constructor
  · intro ops j hj
    have h' : (r.cache.get i).1 = none := h
    rw [r.cache.get_fused i hf hw] at h'
    have hri : r.cache.iter.resp i = none := by
      cases hc : r.cache.iter.resp i
      · rfl
      · rw [hc] at h'
        exact Option.noConfusion h'
    have hrj : r.cache.iter.resp j = none := hf i j hj hri
    have hw1 : (r.at' i).2.cache.WF := r.cache.WF_get i hw
    have hw2 : ((r.at' i).2.run ops).cache.WF := Reiterator.run_WF ops _ hw1
    have hresp2 : ((r.at' i).2.run ops).cache.iter.resp = r.cache.iter.resp := by
      rw [Reiterator.run_resp]
      exact r.cache.get_resp i
    have hf2 : Fused ((r.at' i).2.run ops).cache.iter.resp := by
      rw [hresp2]
      exact hf
    show ((((r.at' i).2.run ops).cache.get j)).1 = none
    rw [Cache.get_fused _ j hf2 hw2, hresp2, hrj]
    rfl
  · intro c k hk
    exact c.get_none_calls k hk

/-- Concrete instance of C3's amended finality: over the empty source, after
`at(0)` returns absent, `at(5)` after further operations is still absent. -/
theorem C3_amended_witness :
    ((Reiterator.new (ofList ([] : List Nat))).at' 0).1 = none ∧
    ((((Reiterator.new (ofList ([] : List Nat))).at' 0).2.run [Op.get']).at' 5).1
      = none := by
  have h : ((Reiterator.new (ofList ([] : List Nat))).at' 0).1 = none := by
    simp [Reiterator.at', Reiterator.new, Cache.new, Cache.get, Iter.next, ofList]
  exact ⟨h, (C3_exhaustion_final _ 0 (fused_ofList _) (Cache.WF_new _) h).1
    [Op.get'] 5 (by omega)⟩

/-- C4 counterexample: over the empty source, the lookup sequence
`get(0), get(0)` makes two advance calls while the final element count is
zero, contradicting "total advance calls equal `count()`". -/
theorem C4_counterexample :
    (((Cache.new (fun _ => (none : Option Nat))).runGets [0, 0]).1.iter.calls = 2) ∧
    (((Cache.new (fun _ => (none : Option Nat))).runGets [0, 0]).1.vec.length = 0) := by
  constructor <;> simp [Cache.runGets, Cache.get, Cache.new, Iter.next]

/-- C4 (amended): for every source and every finite lookup sequence from a
fresh cache, the total number of advance calls equals the final element count
plus the number of lookups that returned absent; in particular it equals
`count()` exactly when every lookup succeeded. -/
theorem C4_advance_call_accounting (resp : Nat → Option α) (is : List Nat) :
    ((Cache.new resp).runGets is).1.iter.calls
      = ((Cache.new resp).runGets is).1.vec.length
        + ((Cache.new resp).runGets is).2 ∧
    (((Cache.new resp).runGets is).2 = 0 →
      ((Cache.new resp).runGets is).1.iter.calls
        = ((Cache.new resp).runGets is).1.vec.length) := by
  have h := Cache.runGets_calls is (Cache.new resp)
  have e1 : (Cache.new resp).vec.length = 0 := rfl
  have e2 : (Cache.new resp).iter.calls = 0 := rfl
  rw [e1, e2] at h
  exact ⟨by omega, fun h0 => by omega⟩

/-- Concrete instance of C4's amended accounting over the one-element source
`[1]` and the lookups `0, 0, 1`. -/
theorem C4_amended_witness :
    ((Cache.new (ofList ([1] : List Nat))).runGets [0, 0, 1]).1.iter.calls
      = ((Cache.new (ofList ([1] : List Nat))).runGets [0, 0, 1]).1.vec.length
        + ((Cache.new (ofList ([1] : List Nat))).runGets [0, 0, 1]).2 :=
  (C4_advance_call_accounting (ofList ([1] : List Nat)) [0, 0, 1]).1

/-- C6: for a finite source of length `n` (with `n + 1` representable in
`usize`), the first `n` calls to `next()` on a fresh cursor yield indices
`0, 1, ..., n-1` in order, each paired with a reference to the correct value
(stored at address `k` for index `k`), and the `(n+1)`-th call yields
absent. -/
theorem C6_cursor_traversal (vals : List α) (h : vals.length + 1 ≤ usizeMax) :
    ((Reiterator.new (ofList vals)).nexts (vals.length + 1)).1
      = (List.range vals.length).map
          (fun k => (vals[k]?).map fun v => Indexed.mk k (k, v)) ++ [none] := by
  have main := Reiterator.nexts_fused (vals.length + 1) (Reiterator.new (ofList vals))
    (fused_ofList vals) (Cache.WF_new _)
    (by show 0 + (vals.length + 1) ≤ usizeMax; omega)
  rw [main.1]
  show (List.range' 0 (vals.length + 1)).map
      (fun k => (ofList vals k).map fun v => Indexed.mk k (k, v)) = _
  rw [← List.range_eq_range', List.range_succ, List.map_append]
  congr 1
  simp only [List.map_cons, List.map_nil]
  rw [show ofList vals vals.length = none from List.getElem?_eq_none (le_refl _)]
  rfl

/-- Concrete instance of C6 on the three-element source `[10, 20, 30]`. -/
theorem C6_witness :
    ([10, 20, 30] : List Nat).length + 1 ≤ usizeMax ∧
    ((Reiterator.new (ofList ([10, 20, 30] : List Nat))).nexts
        (([10, 20, 30] : List Nat).length + 1)).1
      = (List.range ([10, 20, 30] : List Nat).length).map
          (fun k => (([10, 20, 30] : List Nat)[k]?).map fun v => Indexed.mk k (k, v))
        ++ [none] :=
  ⟨by decide, C6_cursor_traversal ([10, 20, 30] : List Nat) (by decide)⟩

/-- C8: `restart` sets the index to zero and changes nothing else, so
replaying the same number of `next()` calls after `restart()` reproduces
exactly the same optional (index, reference) results — identical addresses
included — as the first traversal; and whenever the first traversal succeeded
at every step, the replay leaves the cache (its elements and its source-call
counter) completely untouched, pulling the source only at never-materialized
indices. -/
theorem C8_restart_replay (resp : Nat → Option α) (m : Nat)
    (hf : Fused resp) (hm : m ≤ usizeMax) :
    (∀ (r : Reiterator α), r.restart = { r with index := 0 }) ∧
    ((((Reiterator.new resp).nexts m).2.restart).nexts m).1
      = ((Reiterator.new resp).nexts m).1 ∧
    ((∀ o ∈ ((Reiterator.new resp).nexts m).1, o.isSome) →
      ((((Reiterator.new resp).nexts m).2.restart).nexts m).2.cache
        = ((Reiterator.new resp).nexts m).2.cache) := by
  have hm0 : (Reiterator.new resp).index + m ≤ usizeMax := by
    show 0 + m ≤ usizeMax
    omega
  obtain ⟨res1, idx1, resp1, wf1, pre1, len1, calls1, fr1⟩ :=
    Reiterator.nexts_fused m (Reiterator.new resp) hf (Cache.WF_new resp) hm0
  have res1' : ((Reiterator.new resp).nexts m).1
      = (List.range' 0 m).map (fun k => (resp k).map fun v => Indexed.mk k (k, v)) :=
    res1
  have hresp2 : ((((Reiterator.new resp).nexts m).2.restart)).cache.iter.resp = resp := by
    show ((Reiterator.new resp).nexts m).2.cache.iter.resp = resp
    exact resp1
  have hf2 : Fused ((((Reiterator.new resp).nexts m).2.restart)).cache.iter.resp := by
    rw [hresp2]
    exact hf
  have hw2 : ((((Reiterator.new resp).nexts m).2.restart)).cache.WF := wf1
  have hm2 : ((((Reiterator.new resp).nexts m).2.restart)).index + m ≤ usizeMax := by
    show 0 + m ≤ usizeMax
    omega
  obtain ⟨res2, idx2, resp2, wf2, pre2, len2, calls2, fr2⟩ :=
    Reiterator.nexts_fused m (((Reiterator.new resp).nexts m).2.restart) hf2 hw2 hm2
  rw [hresp2] at res2
  refine ⟨fun r => rfl, by rw [res2, res1']; rfl, ?_⟩
  intro hall
  have hsome : ∀ k, k < m → (resp k).isSome := by
    intro k hk
    have hmem : ((resp k).map fun v => Indexed.mk k (k, v))
        ∈ ((Reiterator.new resp).nexts m).1 := by
      rw [res1']
      exact List.mem_map_of_mem _ (List.mem_range'_1.mpr ⟨Nat.zero_le k, by omega⟩)
    have hk2 := hall _ hmem
    cases hc : resp k with
    | none =>
      rw [hc] at hk2
      simp at hk2
    | some a => rfl
  have hlen : m ≤ ((Reiterator.new resp).nexts m).2.cache.vec.length := by
    cases m with
    | zero => exact Nat.zero_le _
    | succ m' =>
      have := fr1 m' (Nat.zero_le m') (by show m' < 0 + (m' + 1); omega)
        (hsome m' (by omega))
      omega
  have hc := Reiterator.nexts_cached m (((Reiterator.new resp).nexts m).2.restart)
    (by show 0 + m ≤ ((Reiterator.new resp).nexts m).2.cache.vec.length; omega)
    (by show 0 + m ≤ usizeMax; omega)
  exact hc

/-- Concrete instance of C8's replay equality on the source `[10, 20]` with
three `next()` calls (the third observes exhaustion). -/
theorem C8_witness :
    Fused (ofList ([10, 20] : List Nat)) ∧
    3 ≤ usizeMax ∧
    ((((Reiterator.new (ofList ([10, 20] : List Nat))).nexts 3).2.restart).nexts 3).1
      = ((Reiterator.new (ofList ([10, 20] : List Nat))).nexts 3).1 :=
  ⟨fused_ofList _, by decide,
    (C8_restart_replay (ofList ([10, 20] : List Nat)) 3 (fused_ofList _) (by decide)).2.1⟩

/-- C9: `get` is exactly "look up the current index without moving it": it
returns `Some ⟨i, v⟩` precisely when the current index is `i` and `at i`
returns `Some v`; neither `at` nor `get` moves the index; with a
contract-satisfying source, repeating `get` returns the identical result; and
`is_empty` is true exactly when nothing has been materialized. -/
theorem C9_get_is_peek_at_current (r : Reiterator α)
    (hf : Fused r.cache.iter.resp) (hw : r.cache.WF) :
    (∀ i, ((r.at' i).2).index = r.index) ∧
    ((r.get).2.index = r.index) ∧
    ((r.get).1 = ((r.at' r.index).1).map fun v => Indexed.mk r.index v) ∧
    ((r.get).2 = (r.at' r.index).2) ∧
    (∀ i v, (r.get).1 = some (Indexed.mk i v) ↔ r.index = i ∧ (r.at' i).1 = some v) ∧
    (((r.get).2.get).1 = (r.get).1) ∧
    (∀ (c : Cache α), c.is_empty = true ↔ c.vec = []) := by
  refine ⟨fun i => rfl, rfl, rfl, rfl, ?_, ?_, ?_⟩
  · intro i v
    constructor
    · intro hg
      have hg' : ((r.cache.get r.index).1).map (fun v => Indexed.mk r.index v)
          = some (Indexed.mk i v) := hg
      cases hc : (r.cache.get r.index).1 with
      | none =>
        rw [hc] at hg'
        exact Option.noConfusion hg'
      | some w =>
        rw [hc] at hg'
        simp only [Option.map_some', Option.some.injEq, Indexed.mk.injEq] at hg'
        refine ⟨hg'.1, ?_⟩
        show (r.cache.get i).1 = some v
        rw [← hg'.1, hc, hg'.2]
    · rintro ⟨hi, hv⟩
      subst hi
      have hv' : (r.cache.get r.index).1 = some v := hv
      show ((r.cache.get r.index).1).map (fun v => Indexed.mk r.index v)
        = some (Indexed.mk r.index v)
      rw [hv']
      rfl
  · have hA : (r.get).1 = (r.cache.iter.resp r.index).map
        (fun v => Indexed.mk r.index (r.index, v)) := by
      show ((r.cache.get r.index).1).map (fun v => Indexed.mk r.index v) = _
      rw [r.cache.get_fused r.index hf hw, Option.map_map]
      rfl
    have hw2 := r.cache.WF_get r.index hw
    have hf2 : Fused ((r.cache.get r.index).2.iter.resp) := by
      rw [r.cache.get_resp r.index]
      exact hf
    have hB : (((r.get).2).get).1 = ((r.cache.get r.index).2.iter.resp r.index).map
        (fun v => Indexed.mk r.index (r.index, v)) := by
      show (((r.cache.get r.index).2.get r.index).1).map
        (fun v => Indexed.mk r.index v) = _
      rw [Cache.get_fused _ r.index hf2 hw2, Option.map_map]
      rfl
    rw [hB, hA, r.cache.get_resp r.index]
  · intro c
    rw [Cache.is_empty]
    exact List.isEmpty_iff

/-- Concrete instance of C9's repeatability on the source `[5]`. -/
theorem C9_witness :
    Fused ((Reiterator.new (ofList ([5] : List Nat))).cache.iter.resp) ∧
    (Reiterator.new (ofList ([5] : List Nat))).cache.WF ∧
    (((Reiterator.new (ofList ([5] : List Nat))).get).2.get).1
      = ((Reiterator.new (ofList ([5] : List Nat))).get).1 :=
  ⟨fused_ofList _, Cache.WF_new _,
    (C9_get_is_peek_at_current _ (fused_ofList _) (Cache.WF_new _)).2.2.2.2.2.1⟩
